import Mathlib

/-!
A shallow embedding of the redisgo key-value store (`main.go`) and proofs
about its spec-level claims.

Modelling conventions:
* `time.Time` values and `time.Duration` values are integers (nanoseconds);
  Go's zero `time.Time` (meaning "no expiry") is `Option.none`.
* Byte-slice values are `String`s (the reference code treats values as text:
  it logs them with `string(value)` and reads them back as text).
* The Go map `db.data` is an association list with first-match lookup;
  `setKey` removes any old binding before adding the new one, matching
  Go map-assignment semantics.
* The append-only file is modelled as the list of parsed records it holds,
  plus a `writeOk` flag modelling whether the underlying file writes and
  syncs succeed (the I/O environment).
* The snapshot file (`dump.rdb`) is the `snap` field of `DB`; `SAVE`
  replaces it wholesale, matching `os.WriteFile`.
-/

namespace RedisGo

/-- `entry` from main.go: a value and an optional absolute expiry
(`none` models Go's zero `time.Time`, i.e. no expiry). -/
structure Entry where
  value : String
  expiresAt : Option Int
deriving DecidableEq, Repr

/-- The in-memory map `db.data`: an association list from key to entry. -/
abbrev Store := List (String × Entry)

/-- First-match lookup in the store, modelling Go map indexing. -/
def lookupKey : Store → String → Option Entry
  | [], _ => none
  | (k1, e) :: rest, k => if k1 = k then some e else lookupKey rest k

/-- Remove every binding for `k`, modelling Go's `delete(db.data, k)`. -/
def eraseKey : Store → String → Store
  | [], _ => []
  | (k1, e) :: rest, k => if k1 = k then eraseKey rest k else (k1, e) :: eraseKey rest k

/-- Map assignment `db.data[key] = ent`: overwrite any previous binding. -/
def setKey (st : Store) (k : String) (e : Entry) : Store :=
  (k, e) :: eraseKey st k

/-- One AOF record, as written by `appendAOF`: JSON line
with fields cmd, key, optional value, optional ttl_ms. -/
structure LogRec where
  cmd : String
  key : String
  value : Option String
  ttl_ms : Option Int
deriving DecidableEq, Repr

/-- The append-only file: its parsed records plus a flag saying whether
writes to the underlying file (and `Sync`) succeed. -/
structure Aof where
  lines : List LogRec
  writeOk : Bool
deriving DecidableEq, Repr

/-- The `DB` struct: in-memory data, the AOF file, and the snapshot file
(`dump.rdb`) contents written by the last SAVE. -/
structure DB where
  data : Store
  aof : Aof
  snap : List (String × String × Int)
deriving DecidableEq, Repr

/-- `!e.ExpiresAt.IsZero() && now.After(e.ExpiresAt)`: the entry has an
expiry and it lies strictly in the past. -/
def Entry.expired (e : Entry) (now : Int) : Bool :=
  match e.expiresAt with
  | none => false
  | some t => decide (t < now)

/-- `appendAOF` from main.go: build the record (value field only when the
byte slice is non-nil, ttl_ms only when ttl > 0, in milliseconds) and
append it to the file; a failed write or sync returns an error and, in the
model, leaves the file contents unchanged. -/
def appendAOF (a : Aof) (cmd key : String) (value : Option String) (ttl : Int) :
    Aof × Option String :=
  let r : LogRec :=
    { cmd := cmd, key := key, value := value
      ttl_ms := if ttl > 0 then some (ttl / 1000000) else none }
  if a.writeOk then ({ a with lines := a.lines ++ [r] }, none)
  else (a, some "write error")

/-- `DB.Set`: store the entry (expiry `now + ttl` when `ttl > 0`), then
append a SET record to the AOF, returning its error if any. -/
def DB.Set (db : DB) (now : Int) (key value : String) (ttl : Int) : DB × Option String :=
  let ent : Entry := { value := value, expiresAt := if ttl > 0 then some (now + ttl) else none }
  let p := appendAOF db.aof "SET" key (some value) ttl
  ({ db with data := setKey db.data key ent, aof := p.1 }, p.2)

/-- `DB.Get`: return the value unless the key is absent or the entry has
expired strictly before `now`; the database is returned unchanged. -/
def DB.Get (db : DB) (now : Int) (key : String) : Option String × DB :=
  match lookupKey db.data key with
  | none => (none, db)
  | some e => if e.expired now then (none, db) else (some e.value, db)

/-- The loop body of `DB.Del`: for each key that is present, delete it,
count it, and append a DEL record to the AOF, discarding any append
error (`_ = db.appendAOF(...)` in the source). -/
def delLoop : DB → List String → Nat → DB × Nat
  | db, [], n => (db, n)
  | db, k :: ks, n =>
    match lookupKey db.data k with
    | some _ =>
      let p := appendAOF db.aof "DEL" k none 0
      delLoop { db with data := eraseKey db.data k, aof := p.1 } ks (n + 1)
    | none => delLoop db ks n

/-- `DB.Del`: delete each listed key if present, returning the count removed. -/
def DB.Del (db : DB) (keys : List String) : DB × Nat :=
  delLoop db keys 0

/-- One tick of `expiryWorker`: scan the store and delete every entry whose
expiry is set and strictly in the past. -/
def reap (now : Int) (st : Store) : Store :=
  st.filter (fun p => !(p.2.expired now))

/-- A fresh database over an empty AOF whose writes succeed. -/
def emptyDB : DB :=
  { data := [], aof := { lines := [], writeOk := true }, snap := [] }

/- ### Association-list lemmas -/

theorem lookupKey_eraseKey (st : Store) (k k' : String) :
    lookupKey (eraseKey st k) k' = if k' = k then none else lookupKey st k' := by
  induction st with
  | nil => simp [eraseKey, lookupKey]
  | cons p rest ih =>
    obtain ⟨k1, e⟩ := p
    simp only [eraseKey]
    by_cases h1 : k1 = k
    · rw [if_pos h1, ih]
      by_cases h3 : k' = k
      · rw [if_pos h3, if_pos h3]
      · have hne : ¬ k1 = k' := fun hh => h3 (hh.symm.trans h1)
        rw [if_neg h3, if_neg h3]
        simp only [lookupKey]
        rw [if_neg hne]
    · rw [if_neg h1]
      simp only [lookupKey]
      by_cases h2 : k1 = k'
      · have hk : ¬ k' = k := fun hh => h1 (h2.trans hh)
        rw [if_pos h2, if_neg hk, if_pos h2]
      · rw [if_neg h2, ih]
        by_cases h3 : k' = k
        · rw [if_pos h3, if_pos h3]
        · rw [if_neg h3, if_neg h3, if_neg h2]

theorem lookupKey_setKey (st : Store) (k : String) (e : Entry) (k' : String) :
    lookupKey (setKey st k e) k' = if k' = k then some e else lookupKey st k' := by
  simp only [setKey, lookupKey]
  by_cases h : k' = k
  · rw [if_pos h.symm, if_pos h]
  · rw [if_neg (fun hh => h hh.symm), lookupKey_eraseKey, if_neg h, if_neg h]

theorem lookupKey_eq_none_of_not_mem (st : Store) (k : String)
    (h : k ∉ st.map Prod.fst) : lookupKey st k = none := by
  induction st with
  | nil => rfl
  | cons p rest ih =>
    obtain ⟨k1, e⟩ := p
    simp only [List.map_cons, List.mem_cons] at h
    push_neg at h
    simp only [lookupKey]
    rw [if_neg (fun hh : k1 = k => h.1 hh.symm), ih h.2]

/- ### Concrete databases used in closed statements -/

/-- A database holding one never-expiring entry `k ↦ v`. -/
def dbPresent : DB :=
  { data := [("k", { value := "v", expiresAt := none })]
    aof := { lines := [], writeOk := true }, snap := [] }

/-- A database holding one entry `k ↦ w` that expired at time 3. -/
def dbExpired : DB :=
  { data := [("k", { value := "w", expiresAt := some 3 })]
    aof := { lines := [], writeOk := true }, snap := [] }

/- ### Claim C5 -/

/-- Claim C5: `Set` inserts or overwrites the entry (expiry `now + ttl` when
`ttl > 0`, none otherwise); the in-memory mutation is applied independently
of the log append, whose failure is reported as the returned error, so
after a failing `Set` the store still holds the new entry. -/
theorem set_mutation_not_rolled_back (db : DB) (now : Int) (k v : String) (ttl : Int) :
    (db.Set now k v ttl).1.data
      = setKey db.data k { value := v, expiresAt := if ttl > 0 then some (now + ttl) else none }
    ∧ (db.Set now k v ttl).2 = (if db.aof.writeOk then none else some "write error")
    ∧ lookupKey (db.Set now k v ttl).1.data k
      = some { value := v, expiresAt := if ttl > 0 then some (now + ttl) else none } := by
  refine ⟨rfl, ?_, ?_⟩
  · simp only [DB.Set, appendAOF]
    by_cases h : db.aof.writeOk
    · rw [if_pos h]; simp [h]
    · rw [if_neg h]; simp [h]
  · simp only [DB.Set]
    rw [lookupKey_setKey, if_pos rfl]

/- ### Claim C6 -/

/-- Claim C6: deleting an absent key returns 0 and leaves the database
unchanged; a repeated delete of the same key returns 0 after the first
delete; and `DEL k k` with `k` present once returns 1. -/
theorem del_idempotent (db : DB) (k : String) :
    (lookupKey db.data k = none → db.Del [k] = (db, 0))
    ∧ ((db.Del [k]).1.Del [k]).2 = 0
    ∧ (∀ e, lookupKey db.data k = some e → (db.Del [k, k]).2 = 1) := by
  refine ⟨?_, ?_, ?_⟩
  · intro h
    simp [DB.Del, delLoop, h]
  · rcases hl : lookupKey db.data k with _ | e
    · simp [DB.Del, delLoop, hl]
    · simp only [DB.Del, delLoop, hl]
      have h2 : lookupKey (eraseKey db.data k) k = none := by
        rw [lookupKey_eraseKey, if_pos rfl]
      simp [delLoop, h2]
  · intro e hl
    simp only [DB.Del, delLoop, hl]
    have h2 : lookupKey (eraseKey db.data k) k = none := by
      rw [lookupKey_eraseKey, if_pos rfl]
    simp [delLoop, h2]

/-- Claim C6 witness: the three conjuncts of `del_idempotent` exercised on
concrete databases, with every hypothesis discharged concretely. -/
theorem del_idempotent_witness :
    lookupKey emptyDB.data "k" = none
    ∧ emptyDB.Del ["k"] = (emptyDB, 0)
    ∧ ((dbPresent.Del ["k"]).1.Del ["k"]).2 = 0
    ∧ lookupKey dbPresent.data "k" = some { value := "v", expiresAt := none }
    ∧ (dbPresent.Del ["k", "k"]).2 = 1 :=
  ⟨rfl, (del_idempotent emptyDB "k").1 rfl, (del_idempotent dbPresent "k").2.1,
   rfl, (del_idempotent dbPresent "k").2.2 { value := "v", expiresAt := none } rfl⟩

/- ### Claim C9 -/

/-- Keys of the store are pairwise distinct; every store reachable from the
Go map is of this shape. -/
def keysNodup (st : Store) : Prop :=
  (st.map Prod.fst).Nodup

instance (st : Store) : Decidable (keysNodup st) := by
  unfold keysNodup; infer_instance

/-- Claim C9: one reaper tick removes exactly the entries whose expiry is
set and strictly in the past, and returns every other entry unchanged
(same key, same value, same expiry). -/
theorem reaper_removes_exactly_expired (st : Store) (now : Int) (k : String)
    (hnd : keysNodup st) :
    lookupKey (reap now st) k
      = match lookupKey st k with
        | none => none
        | some e => if e.expired now then none else some e := by
  induction st with
  | nil => rfl
  | cons p rest ih =>
    obtain ⟨k1, e1⟩ := p
    have hnd' : keysNodup rest := by
      simpa [keysNodup] using (List.nodup_cons.mp hnd).2
    have hk1 : k1 ∉ rest.map Prod.fst := by
      simpa [keysNodup] using (List.nodup_cons.mp hnd).1
    by_cases hexp : e1.expired now
    · have hr : reap now ((k1, e1) :: rest) = reap now rest := by
        simp [reap, hexp]
      rw [hr, ih hnd']
      by_cases hk : k1 = k
      · subst hk
        have : lookupKey rest k1 = none := lookupKey_eq_none_of_not_mem rest k1 hk1
        simp [lookupKey, this, hexp]
      · simp [lookupKey, hk]
    · have hr : reap now ((k1, e1) :: rest) = (k1, e1) :: reap now rest := by
        simp [reap, hexp]
      rw [hr]
      by_cases hk : k1 = k
      · simp [lookupKey, hk, hexp]
      · simp only [lookupKey]
        rw [if_neg hk, if_neg hk, ih hnd']

/-- Claim C9 witness: a tick at time 10 over a two-entry store removes the
expired entry and keeps the live one intact. -/
theorem reaper_removes_exactly_expired_witness :
    keysNodup [("a", { value := "x", expiresAt := some 3 }),
               ("b", { value := "y", expiresAt := none })]
    ∧ lookupKey (reap 10 [("a", { value := "x", expiresAt := some 3 }),
                          ("b", { value := "y", expiresAt := none })]) "a" = none :=
  ⟨by decide,
   reaper_removes_exactly_expired
     [("a", { value := "x", expiresAt := some 3 }),
      ("b", { value := "y", expiresAt := none })] 10 "a" (by decide)⟩

/- ### Claim C10 -/

/-- Claim C10: `Get` never mutates the database: even when it hits an
expired entry it only reports not-found, leaving the whole map (and the
AOF and snapshot) unchanged; removal happens only in `Del` and the reaper. -/
theorem get_does_not_mutate (db : DB) (now : Int) (k : String) :
    (db.Get now k).2 = db := by
  unfold DB.Get
  rcases lookupKey db.data k with _ | e
  · rfl
  · by_cases h : e.expired now
    · simp [h]
    · simp [h]

/- ### Claim C1 -/

/-- Claim C1 counterexample: an entry set at time 0 with ttl 5 is still
returned by `Get` at time 0 + 5 (the claim requires not-found at any time
≥ t0 + T, but `Get` uses the strict `After`). -/
theorem get_at_exact_expiry_returns_value :
    (((emptyDB.Set 0 "k" "v" 5).1).Get (0 + 5) "k").1 = some "v" := by
  decide

/-- Claim C1 (amended): `Get` returns not-found at any time strictly after
`t0 + T`, and never returns an entry whose expiry is strictly in the past,
whether or not the reaper has removed it. -/
theorem get_not_found_strictly_after_expiry (db : DB) (t0 ttl now texp : Int)
    (k v : String) (e : Entry)
    (httl : 0 < ttl) (hnow : t0 + ttl < now)
    (he : lookupKey db.data k = some e) (hexp : e.expiresAt = some texp)
    (htexp : texp < now) :
    (((db.Set t0 k v ttl).1).Get now k).1 = none
    ∧ (db.Get now k).1 = none := by
  constructor
  · have hdata : (db.Set t0 k v ttl).1.data
        = setKey db.data k { value := v, expiresAt := some (t0 + ttl) } := by
      simp only [DB.Set]
      rw [if_pos httl]
    simp only [DB.Get, hdata]
    rw [lookupKey_setKey, if_pos rfl]
    have : Entry.expired { value := v, expiresAt := some (t0 + ttl) } now = true := by
      simp [Entry.expired, hnow]
    simp [this]
  · have : e.expired now = true := by
      simp [Entry.expired, hexp, htexp]
    simp [DB.Get, he, this]

/-- Claim C1 witness: the amended statement applied to a concrete database
whose entry expired at time 3, read at time 10, after a `Set` at time 0
with ttl 5. -/
theorem get_not_found_strictly_after_expiry_witness :
    (0 : Int) < 5 ∧ (0 : Int) + 5 < 10
    ∧ lookupKey dbExpired.data "k" = some { value := "w", expiresAt := some 3 }
    ∧ (3 : Int) < 10
    ∧ ((((dbExpired.Set 0 "k" "v" 5).1).Get 10 "k").1 = none
       ∧ (dbExpired.Get 10 "k").1 = none) :=
  ⟨by decide, by decide, rfl, by decide,
   get_not_found_strictly_after_expiry dbExpired 0 5 10 3 "k" "v"
     { value := "w", expiresAt := some 3 }
     (by decide) (by decide) rfl rfl (by decide)⟩

/- ### Snapshotting -/

/-- Two's-complement wraparound of Go int64 arithmetic. -/
def int64Wrap (x : Int) : Int :=
  Int.emod (x + 2 ^ 63) (2 ^ 64) - 2 ^ 63

/-- `UnixNano` of Go's zero `time.Time` (Jan 1, year 1): its Unix second
count is -62135596800, whose nanosecond count overflows int64 and wraps. -/
def zeroTimeUnixNano : Int :=
  int64Wrap (-62135596800 * 1000000000)

/-- `e.ExpiresAt.UnixNano()` as written by `SaveSnapshot`. -/
def entryNanos (e : Entry) : Int :=
  match e.expiresAt with
  | some t => int64Wrap t
  | none => zeroTimeUnixNano

/-- The `tmp` map marshalled by `SaveSnapshot`: each key mapped to its
value and the `UnixNano` of its expiry. -/
def snapshotOf (st : Store) : List (String × String × Int) :=
  st.map (fun p => (p.1, p.2.value, entryNanos p.2))

/-- Lookup in a snapshot object. -/
def lookupSnap : List (String × String × Int) → String → Option (String × Int)
  | [], _ => none
  | (k1, v, n) :: rest, k => if k1 = k then some (v, n) else lookupSnap rest k

theorem lookupSnap_snapshotOf (st : Store) (k : String) :
    lookupSnap (snapshotOf st) k
      = (lookupKey st k).map (fun e => (e.value, entryNanos e)) := by
  induction st with
  | nil => rfl
  | cons p rest ih =>
    obtain ⟨k1, e⟩ := p
    by_cases h : k1 = k
    · simp [snapshotOf, lookupSnap, lookupKey, h]
    · simp only [snapshotOf, lookupSnap, lookupKey, List.map_cons]
      rw [if_neg h, if_neg h]
      exact ih

/- ### Protocol layer -/

/-- Go `strings.ToUpper`, on the ASCII command words this server uses. -/
def goToUpper (s : String) : String :=
  String.mk (s.data.map Char.toUpper)

/-- Go `strings.TrimSpace`: drop leading and trailing whitespace. -/
def goTrimSpace (s : String) : String :=
  String.mk (((s.data.dropWhile Char.isWhitespace).reverse.dropWhile
    Char.isWhitespace).reverse)

/-- Accumulator pass of Go `strings.Fields`: split on runs of whitespace. -/
def fieldsAux : List Char → List Char → List (List Char)
  | [], acc => if acc.isEmpty then [] else [acc.reverse]
  | c :: cs, acc =>
    if c.isWhitespace then
      if acc.isEmpty then fieldsAux cs [] else acc.reverse :: fieldsAux cs []
    else fieldsAux cs (c :: acc)

/-- `splitArgs` from main.go: `strings.Fields`. -/
def splitArgs (line : String) : List String :=
  (fieldsAux line.data []).map String.mk

/-- The bulk reply `$<len>\r\n<value>\r\n` written for a successful GET. -/
def bulkReply (v : String) : String :=
  "$" ++ toString v.utf8ByteSize ++ "\r\n" ++ v ++ "\r\n"

/-- The `switch` body of `handleConn`: dispatch one parsed command against
the database and produce the reply line. `parsePx` models
`time.ParseDuration(arg + "ms")`, returning the parsed duration in
nanoseconds, or `none` on a parse error. -/
def dispatch (parsePx : String → Option Int) (now : Int) (db : DB)
    (args : List String) : DB × String :=
  match args with
  | [] => (db, "-ERR empty command\r\n")
  | cmd :: rest =>
    let c := goToUpper cmd
    if c = "PING" then (db, "+PONG\r\n")
    else if c = "SET" then
      match rest with
      | key :: val :: extra =>
        let ttl : Int :=
          match extra with
          | px :: msArg :: _ =>
            if goToUpper px = "PX" then
              match parsePx msArg with
              | some ms => ms
              | none => 0
            else 0
          | _ => 0
        let p := db.Set now key val ttl
        match p.2 with
        | some e => (p.1, "-ERR " ++ e ++ "\r\n")
        | none => (p.1, "+OK\r\n")
      | _ => (db, "-ERR wrong number of args for SET\r\n")
    else if c = "GET" then
      match rest with
      | [key] =>
        let p := db.Get now key
        match p.1 with
        | some v => (p.2, bulkReply v)
        | none => (p.2, "$-1\r\n")
      | _ => (db, "-ERR wrong number of args for GET\r\n")
    else if c = "DEL" then
      match rest with
      | [] => (db, "-ERR wrong number of args for DEL\r\n")
      | _ =>
        let p := db.Del rest
        (p.1, ":" ++ toString p.2 ++ "\r\n")
    else if c = "SAVE" then
      ({ db with snap := snapshotOf db.data }, "+OK\r\n")
    else (db, "-ERR unknown command\r\n")

/-- One iteration of the `handleConn` read loop on a line that was read
successfully: trim it, skip it when blank, otherwise dispatch it and emit
the reply. -/
def processLine (parsePx : String → Option Int) (now : Int) (db : DB)
    (line : String) : DB × List String :=
  let t := goTrimSpace line
  if t = "" then (db, [])
  else
    let args := splitArgs t
    if args.isEmpty then (db, ["-ERR empty command\r\n"])
    else
      let p := dispatch parsePx now db args
      (p.1, [p.2])

/-- The whole `handleConn` loop over the lines available on the
connection, collecting all replies in order. -/
def handleLines (parsePx : String → Option Int) (now : Int) :
    DB → List String → DB × List String
  | db, [] => (db, [])
  | db, l :: ls =>
    let p := processLine parsePx now db l
    let q := handleLines parsePx now p.1 ls
    (q.1, p.2 ++ q.2)

/-- A reply line is an error reply exactly when it starts with a dash. -/
def isErrReply (s : String) : Bool :=
  s.data.head? = some '-'

/-- The AOF record `appendAOF("DEL", k, nil, 0)` writes for one removal. -/
def delRec (k : String) : LogRec :=
  { cmd := "DEL", key := k, value := none, ttl_ms := none }

/-- The AOF record `appendAOF("SET", key, value, ttl)` writes. -/
def setRec (key v : String) (ttlms : Option Int) : LogRec :=
  { cmd := "SET", key := key, value := some v, ttl_ms := ttlms }

/-- The keys a `Del` call actually removes, in iteration order. -/
def removedSeq : Store → List String → List String
  | _, [] => []
  | st, k :: ks =>
    match lookupKey st k with
    | some _ => k :: removedSeq (eraseKey st k) ks
    | none => removedSeq st ks

/-- A database with one entry whose AOF writes fail. -/
def dbNoSync : DB :=
  { data := [("k", { value := "v", expiresAt := none })]
    aof := { lines := [], writeOk := false }, snap := [] }

theorem dispatch_set_no_px (parsePx : String → Option Int) (now : Int) (db : DB)
    (k v : String) :
    dispatch parsePx now db ["SET", k, v]
      = (let p := db.Set now k v 0
         match p.2 with
         | some e => (p.1, "-ERR " ++ e ++ "\r\n")
         | none => (p.1, "+OK\r\n")) := rfl

theorem dispatch_del (parsePx : String → Option Int) (now : Int) (db : DB)
    (k : String) (ks : List String) :
    dispatch parsePx now db ("DEL" :: k :: ks)
      = (let p := db.Del (k :: ks)
         (p.1, ":" ++ toString p.2 ++ "\r\n")) := rfl

theorem delLoop_lines_count (keys : List String) : ∀ (db : DB) (n : Nat),
    (delLoop db keys n).1.aof.lines
      = db.aof.lines
        ++ (if db.aof.writeOk then (removedSeq db.data keys).map delRec else [])
    ∧ (delLoop db keys n).2 = n + (removedSeq db.data keys).length := by
  induction keys with
  | nil => intro db n; simp [delLoop, removedSeq]
  | cons k ks ih =>
    intro db n
    rcases h : lookupKey db.data k with _ | e
    · simp only [delLoop, h, removedSeq]
      exact ih db n
    · simp only [delLoop, h, removedSeq]
      by_cases hw : db.aof.writeOk
      · have hred : appendAOF db.aof "DEL" k none 0
            = ({ db.aof with lines := db.aof.lines ++ [delRec k] }, none) := by
          simp [appendAOF, hw, delRec]
        rw [hred]
        obtain ⟨ih1, ih2⟩ :=
          ih { db with data := eraseKey db.data k,
                       aof := { db.aof with lines := db.aof.lines ++ [delRec k] } } (n + 1)
        constructor
        · simp only at ih1
          rw [ih1]
          simp [hw, List.append_assoc]
        · simp only at ih2
          rw [ih2]
          simp only [List.length_cons]
          omega
      · have hred : appendAOF db.aof "DEL" k none 0
            = (db.aof, some "write error") := by
          simp [appendAOF, hw]
        rw [hred]
        obtain ⟨ih1, ih2⟩ := ih { db with data := eraseKey db.data k } (n + 1)
        constructor
        · simp only at ih1
          rw [ih1]
          simp [hw]
        · simp only at ih2
          rw [ih2]
          simp only [List.length_cons]
          omega

/- ### Claim C4 -/

/-- Claim C4 counterexample: with a failing AOF (`writeOk = false`), a
`DEL k` of a present key still removes it and the connection receives the
integer reply `:1`, not an error reply — the append failure is discarded
(`_ = db.appendAOF(...)`) and nothing was logged. -/
theorem del_append_failure_not_surfaced :
    (dispatch (fun _ => none) 0 dbNoSync ["DEL", "k"]).2 = ":1\r\n"
    ∧ (dispatch (fun _ => none) 0 dbNoSync ["DEL", "k"]).1.aof.lines = []
    ∧ isErrReply ":1\r\n" = false := by
  refine ⟨by decide, by decide, by decide⟩

/-- Claim C4 (amended): each individual removal performed by `Del` is
independently logged as its own DEL record (when the log accepts writes;
a failed append leaves the log untouched and is discarded), a log failure
during SET is surfaced to the caller as an error reply, but a log failure
during DEL is not surfaced: the reply is always the removed count. -/
theorem del_logging_and_set_error_surfacing (parsePx : String → Option Int)
    (now : Int) (db : DB) (kv v kd : String) (keys : List String) (n : Nat) :
    (delLoop db keys n).1.aof.lines
      = db.aof.lines
        ++ (if db.aof.writeOk then (removedSeq db.data keys).map delRec else [])
    ∧ (delLoop db keys n).2 = n + (removedSeq db.data keys).length
    ∧ (dispatch parsePx now db ["SET", kv, v]).2
      = (if db.aof.writeOk then "+OK\r\n" else "-ERR write error\r\n")
    ∧ (dispatch parsePx now db ("DEL" :: kd :: keys)).2
      = ":" ++ toString (db.Del (kd :: keys)).2 ++ "\r\n" := by
  refine ⟨(delLoop_lines_count keys db n).1, (delLoop_lines_count keys db n).2, ?_, ?_⟩
  · rw [dispatch_set_no_px]
    by_cases hw : db.aof.writeOk
    · simp [DB.Set, appendAOF, hw]
    · simp [DB.Set, appendAOF, hw]
  · rw [dispatch_del]

/- ### Claim C3 -/

/-- Claim C3 counterexample: a snapshot of a store holding one entry with
no expiry records `expiresAt = -6795364578871345152` (the `UnixNano` of
Go's zero `time.Time`), not 0 as the claim states. -/
theorem snapshot_no_expiry_nanos_ne_zero :
    snapshotOf [("k", { value := "v", expiresAt := none })]
      = [("k", "v", -6795364578871345152)]
    ∧ (-6795364578871345152 : Int) ≠ 0 := by
  refine ⟨by decide, by decide⟩

/-- The numeric value of the Go zero-time `UnixNano` constant. -/
theorem zeroTimeUnixNano_eq : zeroTimeUnixNano = -6795364578871345152 := by
  decide

/-- Claim C3 (amended): SAVE replaces the snapshot file wholesale with one
object mapping each key to its value and the `UnixNano` of its expiry:
the absolute expiry (wrapped to int64) when one is set, and the Go
zero-time constant -6795364578871345152 (not 0) for entries with no
expiry. -/
theorem snapshot_format_and_overwrite (parsePx : String → Option Int)
    (now : Int) (db : DB) (k v : String) (t : Int) :
    (dispatch parsePx now db ["SAVE"]).1.snap = snapshotOf db.data
    ∧ (dispatch parsePx now db ["SAVE"]).2 = "+OK\r\n"
    ∧ lookupSnap (snapshotOf db.data) k
      = (lookupKey db.data k).map (fun e => (e.value, entryNanos e))
    ∧ entryNanos { value := v, expiresAt := none } = (-6795364578871345152 : Int)
    ∧ entryNanos { value := v, expiresAt := some t } = int64Wrap t := by
  exact ⟨rfl, rfl, lookupSnap_snapshotOf db.data k, zeroTimeUnixNano_eq, rfl⟩

/- ### Claim C7 -/

/-- Claim C7: a SET whose PX value does not parse silently drops the TTL:
the entry is stored with no expiry and the reply is still `+OK`. -/
theorem set_malformed_px_ignored (parsePx : String → Option Int) (db : DB)
    (now : Int) (k v a : String)
    (hparse : parsePx a = none) (hok : db.aof.writeOk = true) :
    (dispatch parsePx now db ["SET", k, v, "PX", a]).2 = "+OK\r\n"
    ∧ lookupKey (dispatch parsePx now db ["SET", k, v, "PX", a]).1.data k
      = some { value := v, expiresAt := none } := by
  have hred : dispatch parsePx now db ["SET", k, v, "PX", a]
      = (let p := db.Set now k v (match parsePx a with | some ms => ms | none => 0)
         match p.2 with
         | some e => (p.1, "-ERR " ++ e ++ "\r\n")
         | none => (p.1, "+OK\r\n")) := rfl
  rw [hred, hparse]
  have hset : db.Set now k v 0
      = ({ db with data := setKey db.data k { value := v, expiresAt := none },
                   aof := { db.aof with lines := db.aof.lines
                     ++ [{ cmd := "SET", key := k, value := some v, ttl_ms := none }] } },
         none) := by
    simp [DB.Set, appendAOF, hok]
  rw [hset]
  refine ⟨rfl, ?_⟩
  simp only
  rw [lookupKey_setKey, if_pos rfl]

/-- Claim C7 witness: a concrete malformed PX argument. -/
theorem set_malformed_px_ignored_witness :
    ((fun _ => (none : Option Int)) "zz" = none)
    ∧ emptyDB.aof.writeOk = true
    ∧ ((dispatch (fun _ => none) 0 emptyDB ["SET", "k", "v", "PX", "zz"]).2 = "+OK\r\n"
       ∧ lookupKey (dispatch (fun _ => none) 0 emptyDB
           ["SET", "k", "v", "PX", "zz"]).1.data "k"
         = some { value := "v", expiresAt := none }) :=
  ⟨rfl, rfl, set_malformed_px_ignored (fun _ => none) emptyDB 0 "k" "v" "zz" rfl rfl⟩

/- ### Claim C8 -/

/-- Claim C8: an unknown command yields exactly the reply
`-ERR unknown command\r\n`, leaves the database unchanged, and the read
loop keeps going: the remaining lines are processed exactly as they would
have been without the unknown command. -/
theorem unknown_command_connection_continues (parsePx : String → Option Int)
    (now : Int) (db : DB) (line : String) (rest : List String)
    (c : String) (args : List String)
    (hsplit : splitArgs (goTrimSpace line) = c :: args)
    (hc : ¬(goToUpper c = "PING" ∨ goToUpper c = "SET" ∨ goToUpper c = "GET"
        ∨ goToUpper c = "DEL" ∨ goToUpper c = "SAVE")) :
    processLine parsePx now db line = (db, ["-ERR unknown command\r\n"])
    ∧ handleLines parsePx now db (line :: rest)
      = ((handleLines parsePx now db rest).1,
         "-ERR unknown command\r\n" :: (handleLines parsePx now db rest).2) := by
  push_neg at hc
  obtain ⟨h1, h2, h3, h4, h5⟩ := hc
  have hne : goTrimSpace line ≠ "" := by
    intro h
    rw [h] at hsplit
    have h0 : splitArgs "" = [] := by decide
    rw [h0] at hsplit
    exact List.noConfusion hsplit
  have hdisp : dispatch parsePx now db (c :: args)
      = (db, "-ERR unknown command\r\n") := by
    simp only [dispatch]
    rw [if_neg h1, if_neg h2, if_neg h3, if_neg h4, if_neg h5]
  have hproc : processLine parsePx now db line = (db, ["-ERR unknown command\r\n"]) := by
    simp only [processLine]
    rw [if_neg hne, hsplit]
    simp only [List.isEmpty_cons, Bool.false_eq_true, if_false, hdisp]
  refine ⟨hproc, ?_⟩
  simp only [handleLines, hproc, List.singleton_append]

/-- Claim C8 witness: the unknown command `FOO` followed by a valid `PING`
on the same connection. -/
theorem unknown_command_connection_continues_witness :
    splitArgs (goTrimSpace "FOO") = ["FOO"]
    ∧ ¬(goToUpper "FOO" = "PING" ∨ goToUpper "FOO" = "SET" ∨ goToUpper "FOO" = "GET"
        ∨ goToUpper "FOO" = "DEL" ∨ goToUpper "FOO" = "SAVE")
    ∧ (processLine (fun _ => none) 0 emptyDB "FOO"
         = (emptyDB, ["-ERR unknown command\r\n"])
       ∧ handleLines (fun _ => none) 0 emptyDB ["FOO", "PING"]
         = ((handleLines (fun _ => none) 0 emptyDB ["PING"]).1,
            "-ERR unknown command\r\n"
              :: (handleLines (fun _ => none) 0 emptyDB ["PING"]).2)) :=
  ⟨by decide, by decide,
   unknown_command_connection_continues (fun _ => none) 0 emptyDB "FOO" ["PING"]
     "FOO" [] (by decide) (by decide)⟩

/- ### AOF replay (loadAOF) and the round-trip property -/

/-- One iteration of the `loadAOF` loop applied to a parsed record at the
current clock reading `now`: a SET record rebuilds the entry with a fresh
expiry computed from `now` and the logged `ttl_ms` (ignored unless
positive), reading a missing value field as Go's `"<nil>"`; a DEL record
deletes the key; other commands are ignored. -/
def replayRec (now : Int) (st : Store) (rc : LogRec) : Store :=
  if goToUpper rc.cmd = "SET" then
    let val := match rc.value with | some v => v | none => "<nil>"
    let ttl : Int := match rc.ttl_ms with
      | some ms => if ms > 0 then ms * 1000000 else 0
      | none => 0
    setKey st rc.key
      { value := val, expiresAt := if ttl > 0 then some (now + ttl) else none }
  else if goToUpper rc.cmd = "DEL" then
    eraseKey st rc.key
  else st

/-- Replay every record in file order regardless of line length; a proof
device that coincides with `replayNoLimit`'s faithful counterpart
`replayAll` exactly when every line fits the scanner buffer. `ts`
supplies the clock reading observed while each record is applied. -/
def replayNoLimit : Store → List LogRec → List Int → Store
  | st, [], _ => st
  | st, rc :: rcs, ts => replayNoLimit (replayRec (ts.headD 0) st rc) rcs ts.tail

/-- `bufio.MaxScanTokenSize`, the scanner's default maximum buffer size. -/
def maxScanTokenSize : Nat := 65536

/-- Encoded length in bytes of one character under the Go `encoding/json`
string encoder (HTML escaping on, as `json.Marshal` defaults to): quote,
backslash, newline, carriage return and tab take two bytes, other control
characters and the HTML-significant or line-separator characters take a
six-byte `\u` escape, everything else its UTF-8 size. -/
def escLen (c : Char) : Nat :=
  if c = '"' ∨ c = '\\' then 2
  else if c = '\n' ∨ c = '\r' ∨ c = '\t' then 2
  else if c.toNat < 32 then 6
  else if c = '<' ∨ c = '>' ∨ c = '&' then 6
  else if c.toNat = 0x2028 ∨ c.toNat = 0x2029 then 6
  else c.utf8Size

/-- Byte length of a string serialized as a JSON string, quotes included. -/
def jsonStrLen (s : String) : Nat :=
  2 + (s.data.map escLen).sum

/-- Byte length of the JSON line `appendAOF` writes for a record
(excluding the trailing newline): `json.Marshal` emits the map fields in
sorted key order, `{"cmd":C,"key":K[,"ttl_ms":N][,"value":V]}`. -/
def lineLen (r : LogRec) : Nat :=
  7 + jsonStrLen r.cmd + 7 + jsonStrLen r.key
    + (match r.ttl_ms with | some n => 10 + (toString n).length | none => 0)
    + (match r.value with | some v => 9 + jsonStrLen v | none => 0)
    + 1

/-- `loadAOF`: replay the records in file order; `ts` supplies the clock
reading observed while each record is applied. The file is read through
`bufio.NewScanner` at the default `MaxScanTokenSize` and `scanner.Err()`
is never checked: a line whose length reaches the buffer size cannot fit
together with its newline, so `Scan` returns false (`ErrTooLong`) and the
loop ends silently, leaving that record and every later one unapplied. -/
def replayAll : Store → List LogRec → List Int → Store
  | st, [], _ => st
  | st, rc :: rcs, ts =>
    if lineLen rc < maxScanTokenSize then
      replayAll (replayRec (ts.headD 0) st rc) rcs ts.tail
    else st

theorem replayAll_eq_of_fit (rcs : List LogRec) : ∀ (st : Store) (ts : List Int),
    (∀ rc ∈ rcs, lineLen rc < maxScanTokenSize) →
    replayAll st rcs ts = replayNoLimit st rcs ts := by
  induction rcs with
  | nil => intro st ts _; rfl
  | cons rc rcs ih =>
    intro st ts hfit
    have h1 : lineLen rc < maxScanTokenSize := hfit rc (List.mem_cons_self rc rcs)
    simp only [replayAll, replayNoLimit, if_pos h1]
    exact ih _ ts.tail (fun r hr => hfit r (List.mem_cons_of_mem rc hr))

/-- A client-visible mutating operation, as issued against the store. -/
inductive Op where
  | set (key value : String) (ttl : Int)
  | del (keys : List String)

/-- Apply one operation to the database at clock reading `t`. -/
def applyOp (t : Int) (db : DB) : Op → DB
  | Op.set k v ttl => (db.Set t k v ttl).1
  | Op.del ks => (db.Del ks).1

/-- Apply a sequence of timestamped operations in order. -/
def applyOps : DB → List (Op × Int) → DB
  | db, [] => db
  | db, (op, t) :: rest => applyOps (applyOp t db op) rest

/-- The key-to-value view of a store: what keys are bound, and to which
value, ignoring expiry metadata. -/
def vm (st : Store) (k : String) : Option String :=
  (lookupKey st k).map Entry.value

theorem vm_setKey (st : Store) (k : String) (e : Entry) (k' : String) :
    vm (setKey st k e) k' = if k' = k then some e.value else vm st k' := by
  unfold vm
  rw [lookupKey_setKey]
  by_cases h : k' = k <;> simp [h]

theorem vm_eraseKey (st : Store) (k k' : String) :
    vm (eraseKey st k) k' = if k' = k then none else vm st k' := by
  unfold vm
  rw [lookupKey_eraseKey]
  by_cases h : k' = k <;> simp [h]

theorem replayRec_delRec (t : Int) (st : Store) (k : String) :
    replayRec t st (delRec k) = eraseKey st k := rfl

/-- The ttl a replayed SET record carries: `ttl_ms` scaled back to
nanoseconds when positive, else zero. -/
def replayTtl (ms : Int) : Int :=
  if ms > 0 then ms * 1000000 else 0

theorem replayRec_setRec (t : Int) (st : Store) (key v : String) (ms : Int) :
    replayRec t st (setRec key v (some ms))
      = setKey st key
          { value := v,
            expiresAt := if replayTtl ms > 0 then some (t + replayTtl ms) else none } := rfl

theorem replayRec_vm_congr (s1 s2 : Store) (h : ∀ k, vm s1 k = vm s2 k)
    (t : Int) (rc : LogRec) (k : String) :
    vm (replayRec t s1 rc) k = vm (replayRec t s2 rc) k := by
  unfold replayRec
  by_cases h1 : goToUpper rc.cmd = "SET"
  · rw [if_pos h1, if_pos h1]
    by_cases hk : k = rc.key <;> simp [vm_setKey, hk, h k]
  · rw [if_neg h1, if_neg h1]
    by_cases h2 : goToUpper rc.cmd = "DEL"
    · rw [if_pos h2, if_pos h2]
      by_cases hk : k = rc.key <;> simp [vm_eraseKey, hk, h k]
    · rw [if_neg h2, if_neg h2]
      exact h k

theorem replayNoLimit_vm_congr (rcs : List LogRec) : ∀ (s1 s2 : Store) (ts : List Int),
    (∀ k, vm s1 k = vm s2 k) →
    ∀ k, vm (replayNoLimit s1 rcs ts) k = vm (replayNoLimit s2 rcs ts) k := by
  induction rcs with
  | nil => intro s1 s2 ts h k; exact h k
  | cons rc rcs ih =>
    intro s1 s2 ts h k
    simp only [replayNoLimit]
    exact ih _ _ ts.tail (fun k' => replayRec_vm_congr s1 s2 h (ts.headD 0) rc k') k

theorem replayNoLimit_append (a : List LogRec) : ∀ (b : List LogRec) (st : Store) (ts : List Int),
    replayNoLimit st (a ++ b) ts = replayNoLimit (replayNoLimit st a ts) b (ts.drop a.length) := by
  induction a with
  | nil => intro b st ts; simp [replayNoLimit]
  | cons rc rcs ih =>
    intro b st ts
    have h1 : replayNoLimit st ((rc :: rcs) ++ b) ts
        = replayNoLimit (replayRec (ts.headD 0) st rc) (rcs ++ b) ts.tail := rfl
    have h2 : replayNoLimit st (rc :: rcs) ts
        = replayNoLimit (replayRec (ts.headD 0) st rc) rcs ts.tail := rfl
    rw [h1, ih b _ ts.tail, h2]
    congr 1
    cases ts <;> simp

theorem replayRec_setRecNone (t : Int) (st : Store) (key v : String) :
    replayRec t st (setRec key v none)
      = setKey st key { value := v, expiresAt := none } := rfl

theorem delLoop_roundtrip (ks : List String) : ∀ (db : DB) (n : Nat) (r : Store),
    db.aof.writeOk = true → (∀ k, vm db.data k = vm r k) →
    (delLoop db ks n).1.aof.writeOk = true
    ∧ ∃ D, (delLoop db ks n).1.aof.lines = db.aof.lines ++ D
        ∧ ∀ ts k, vm (delLoop db ks n).1.data k = vm (replayNoLimit r D ts) k := by
  induction ks with
  | nil =>
    intro db n r hok hvm
    exact ⟨hok, [], by simp [delLoop],
      fun ts k => by simpa [delLoop, replayNoLimit] using hvm k⟩
  | cons k0 ks ih =>
    intro db n r hok hvm
    rcases h : lookupKey db.data k0 with _ | e
    · have hd : delLoop db (k0 :: ks) n = delLoop db ks n := by
        simp [delLoop, h]
      rw [hd]
      exact ih db n r hok hvm
    · have hred : appendAOF db.aof "DEL" k0 none 0
          = ({ db.aof with lines := db.aof.lines ++ [delRec k0] }, none) := by
        simp [appendAOF, hok, delRec]
      have hd : delLoop db (k0 :: ks) n
          = delLoop { db with data := eraseKey db.data k0,
                              aof := { db.aof with
                                lines := db.aof.lines ++ [delRec k0] } } ks (n + 1) := by
        simp only [delLoop, h]
        rw [hred]
      rw [hd]
      obtain ⟨hok2, D, hlines, hvm2⟩ :=
        ih { db with data := eraseKey db.data k0,
                     aof := { db.aof with
                       lines := db.aof.lines ++ [delRec k0] } } (n + 1)
          (eraseKey r k0) hok
          (fun k => by
            show vm (eraseKey db.data k0) k = vm (eraseKey r k0) k
            rw [vm_eraseKey, vm_eraseKey]
            by_cases hk : k = k0 <;> simp [hk, hvm k])
      refine ⟨hok2, delRec k0 :: D, ?_, ?_⟩
      · rw [hlines]
        simp
      · intro ts k
        have hr : replayNoLimit r (delRec k0 :: D) ts
            = replayNoLimit (eraseKey r k0) D ts.tail := by
          simp only [replayNoLimit]
          rw [replayRec_delRec]
        rw [hr]
        exact hvm2 ts.tail k

theorem applyOp_roundtrip (t : Int) (op : Op) (db : DB) (r : Store)
    (hok : db.aof.writeOk = true) (hvm : ∀ k, vm db.data k = vm r k) :
    (applyOp t db op).aof.writeOk = true
    ∧ ∃ D, (applyOp t db op).aof.lines = db.aof.lines ++ D
        ∧ ∀ ts k, vm (applyOp t db op).data k = vm (replayNoLimit r D ts) k := by
  cases op with
  | set key v ttl =>
    have hred : appendAOF db.aof "SET" key (some v) ttl
        = ({ db.aof with
              lines := db.aof.lines
                ++ [setRec key v (if ttl > 0 then some (ttl / 1000000) else none)] },
           none) := by
      simp [appendAOF, hok, setRec]
    have hop : applyOp t db (Op.set key v ttl)
        = { db with
            data := setKey db.data key
              { value := v, expiresAt := if ttl > 0 then some (t + ttl) else none },
            aof := { db.aof with
              lines := db.aof.lines
                ++ [setRec key v (if ttl > 0 then some (ttl / 1000000) else none)] } } := by
      simp only [applyOp, DB.Set]
      rw [hred]
    rw [hop]
    refine ⟨hok, [setRec key v (if ttl > 0 then some (ttl / 1000000) else none)],
      rfl, ?_⟩
    intro ts k
    have hone : ∀ (ms : Option Int),
        replayNoLimit r [setRec key v ms] ts = replayRec (ts.headD 0) r (setRec key v ms) :=
      fun ms => rfl
    by_cases httl : ttl > 0
    · rw [if_pos httl, if_pos httl, hone, replayRec_setRec, vm_setKey, vm_setKey]
      by_cases hk : k = key <;> simp [hk, hvm k]
    · rw [if_neg httl, if_neg httl, hone, replayRec_setRecNone, vm_setKey, vm_setKey]
      by_cases hk : k = key <;> simp [hk, hvm k]
  | del ks =>
    show (delLoop db ks 0).1.aof.writeOk = true ∧ _
    exact delLoop_roundtrip ks db 0 r hok hvm

theorem applyOps_roundtrip (ops : List (Op × Int)) : ∀ (db : DB) (r : Store),
    db.aof.writeOk = true → (∀ k, vm db.data k = vm r k) →
    (applyOps db ops).aof.writeOk = true
    ∧ ∃ D, (applyOps db ops).aof.lines = db.aof.lines ++ D
        ∧ ∀ ts k, vm (applyOps db ops).data k = vm (replayNoLimit r D ts) k := by
  induction ops with
  | nil =>
    intro db r hok hvm
    exact ⟨hok, [], by simp [applyOps],
      fun ts k => by simpa [applyOps, replayNoLimit] using hvm k⟩
  | cons p ops ih =>
    obtain ⟨op, t⟩ := p
    intro db r hok hvm
    obtain ⟨hok1, D1, hlines1, hvm1⟩ := applyOp_roundtrip t op db r hok hvm
    obtain ⟨hok2, D2, hlines2, hvm2⟩ :=
      ih (applyOp t db op) (replayNoLimit r D1 []) hok1 (fun k => hvm1 [] k)
    have happ : applyOps db ((op, t) :: ops) = applyOps (applyOp t db op) ops := rfl
    rw [happ]
    refine ⟨hok2, D1 ++ D2, ?_, ?_⟩
    · rw [hlines2, hlines1, List.append_assoc]
    · intro ts k
      rw [hvm2 (ts.drop D1.length) k, replayNoLimit_append]
      exact replayNoLimit_vm_congr D2 (replayNoLimit r D1 []) (replayNoLimit r D1 ts)
        (ts.drop D1.length)
        (fun k' => (hvm1 [] k').symm.trans (hvm1 ts k')) k

/- ### Claim C2 -/

/-- A value long enough that its SET record's JSON line cannot fit the
scanner buffer: 65600 letters. -/
def bigValue : String :=
  String.mk (List.replicate 65600 'a')

theorem escLen_a : escLen 'a' = 1 := by decide

theorem sum_map_escLen_replicate (n : Nat) :
    ((List.replicate n 'a').map escLen).sum = n := by
  induction n with
  | zero => rfl
  | succ n ih =>
    rw [List.replicate_succ, List.map_cons, List.sum_cons, ih, escLen_a]
    omega

theorem jsonStrLen_eq (s : String) :
    jsonStrLen s = 2 + (s.data.map escLen).sum := rfl

theorem lineLen_setRec_noTtl (key v : String) :
    lineLen (setRec key v none)
      = 7 + jsonStrLen "SET" + 7 + jsonStrLen key + 0 + (9 + jsonStrLen v) + 1 := rfl

theorem jsonStrLen_bigValue : jsonStrLen bigValue = 65602 := by
  have hd : bigValue.data = List.replicate 65600 'a' := rfl
  rw [jsonStrLen_eq, hd, sum_map_escLen_replicate]

/-- Claim C2 counterexample: the one-SET sequence whose value is
`bigValue` defeats the round trip: its log line is 65634 bytes, so
`loadAOF`'s scanner stops with an unchecked `ErrTooLong` and replay from
empty loses the key, while direct application retains it. -/
theorem aof_replay_truncation_loses_key :
    lineLen (setRec "k" bigValue none) = 65634
    ∧ vm (replayAll [] (applyOps emptyDB [(Op.set "k" bigValue 0, 0)]).aof.lines []) "k"
      = none
    ∧ vm (applyOps emptyDB [(Op.set "k" bigValue 0, 0)]).data "k" = some bigValue := by
  have h2 : jsonStrLen "SET" = 5 := by decide
  have h3 : jsonStrLen "k" = 3 := by decide
  have hlen : lineLen (setRec "k" bigValue none) = 65634 := by
    rw [lineLen_setRec_noTtl, jsonStrLen_bigValue, h2, h3]
  have hlines : (applyOps emptyDB [(Op.set "k" bigValue 0, 0)]).aof.lines
      = [setRec "k" bigValue none] := rfl
  refine ⟨hlen, ?_, ?_⟩
  · rw [hlines]
    have hge : ¬ lineLen (setRec "k" bigValue none) < maxScanTokenSize := by
      rw [hlen]
      decide
    simp only [replayAll]
    rw [if_neg hge]
    rfl
  · have hdata : (applyOps emptyDB [(Op.set "k" bigValue 0, 0)]).data
        = setKey [] "k" { value := bigValue, expiresAt := none } := rfl
    rw [hdata, vm_setKey, if_pos rfl]

/-- Claim C2 (amended): for every sequence of SET/DEL operations whose
produced log lines each fit within the scanner's 64 KiB buffer (length
under `maxScanTokenSize` bytes), replaying the append log into an empty
store, at arbitrary replay times, reproduces exactly the key set and
values obtained by applying the operations directly (`vm` is both the
value at a bound key and, via `none`, key-set membership); and every
replayed SET record stores an expiry freshly computed from the
replay-time clock `t` and the logged `ttl_ms` (none when `ttl_ms` is not
positive), not the original absolute expiry. A log line at or over the
limit silently truncates replay at that record and all later ones. -/
theorem aof_replay_roundtrip (ops : List (Op × Int)) (ts : List Int) (k : String)
    (t : Int) (st : Store) (key v : String) (ms : Int)
    (hfit : ∀ rc ∈ (applyOps emptyDB ops).aof.lines, lineLen rc < maxScanTokenSize) :
    vm (replayAll [] (applyOps emptyDB ops).aof.lines ts) k
      = vm (applyOps emptyDB ops).data k
    ∧ replayRec t st (setRec key v (some ms))
      = setKey st key
          { value := v, expiresAt := if ms > 0 then some (t + ms * 1000000) else none } := by
  constructor
  · rw [replayAll_eq_of_fit _ _ _ hfit]
    obtain ⟨-, D, hlines, hvm⟩ :=
      applyOps_roundtrip ops emptyDB [] rfl (fun _ => rfl)
    have hD : (applyOps emptyDB ops).aof.lines = D := by
      simpa [emptyDB] using hlines
    rw [hD]
    exact (hvm ts k).symm
  · rw [replayRec_setRec]
    by_cases h : ms > 0
    · have h6 : replayTtl ms > 0 := by
        simp only [replayTtl, if_pos h]
        exact mul_pos h (by norm_num)
      rw [if_pos h6, if_pos h]
      simp [replayTtl, h]
    · have h6 : ¬ replayTtl ms > 0 := by
        simp [replayTtl, h]
      rw [if_neg h6, if_neg h]

/-- A small operation sequence whose log lines all fit the scanner. -/
def opsSmall : List (Op × Int) :=
  [(Op.set "a" "x" 0, 0), (Op.del ["a", "zz"], 1), (Op.set "b" "2" 5000000, 2)]

/-- Claim C2 witness: the amended round trip on a concrete small
sequence, its fit hypothesis discharged by evaluation. -/
theorem aof_replay_roundtrip_witness :
    (∀ rc ∈ (applyOps emptyDB opsSmall).aof.lines, lineLen rc < maxScanTokenSize)
    ∧ vm (replayAll [] (applyOps emptyDB opsSmall).aof.lines [7, 8, 9]) "b"
      = vm (applyOps emptyDB opsSmall).data "b"
    ∧ replayRec 7 [] (setRec "b" "2" (some 5))
      = setKey [] "b"
          { value := "2",
            expiresAt := if (5 : Int) > 0 then some (7 + 5 * 1000000) else none } := by
  have h := aof_replay_roundtrip opsSmall [7, 8, 9] "b" 7 [] "b" "2" 5 (by decide)
  exact ⟨by decide, h.1, h.2⟩

end RedisGo
